import Mathlib

/-
Verification of the multithreaded chunk compressor / decompressor
(src/multithreaded_compressor.cpp, src/multithreaded_decompressor.cpp).

The embedding is byte-level: files and payloads are `List Nat` (one entry per
byte), the external zlib codec is an abstract `Codec` structure, and the two
`main` pipelines are modelled as pure functions.  Concurrency is modelled where
it is observable: worker completion order permutes the order in which results
are pushed into the shared `compressed_chunks` vector, so the theorems about
schedule independence quantify over permutations of the canonical result list.
-/

namespace MTC

/-- `CHUNK_SIZE` constant (1 MiB), identical in both source files. -/
def CHUNK_SIZE : Nat := 1024 * 1024

/-- `struct Chunk` (compressor): a sequence-numbered chunk of input data. -/
structure Chunk where
  id : Nat
  data : List Nat
deriving DecidableEq

/-- `struct CompressedChunk` (compressor): a chunk after compression. -/
structure CompressedChunk where
  id : Nat
  data : List Nat
deriving DecidableEq

/-- zlib's `compressBound(n) = n + (n >> 12) + (n >> 14) + (n >> 25) + 13`,
the worst-case compressed size used by `compressData` to size its output
buffer. -/
def compressBound (n : Nat) : Nat :=
  n + n / 4096 + n / 16384 + n / 33554432 + 13

/-- The external zlib codec, abstract.  `comp x cap` models
`compress(dest, &destLen, x.data(), x.size())` called with a destination
buffer of capacity `cap` (destLen in/out); `decomp y cap` models
`uncompress(dest, &destLen, y.data(), y.size())` likewise.  `none` is any
non-`Z_OK` return.  The two laws reflect the C API: a successful call reports
a written size that fits the destination buffer it was given (zlib returns
`Z_BUF_ERROR`, i.e. `none`, when the buffer is too small). -/
structure Codec where
  comp : List Nat → Nat → Option (List Nat)
  decomp : List Nat → Nat → Option (List Nat)
  comp_le : ∀ x cap y, comp x cap = some y → y.length ≤ cap
  decomp_le : ∀ x cap y, decomp x cap = some y → y.length ≤ cap

/-- `compressData` (compressor, lines 100-116): empty input returns an empty
vector without calling the codec; otherwise zlib `compress` runs with a
destination buffer of `compressBound(input.size())` bytes, and a non-`Z_OK`
return throws (`none` here). -/
def compressData (c : Codec) (input : List Nat) : Option (List Nat) :=
  if input = [] then some []
  else c.comp input (compressBound input.length)

/-- `decompressData` (decompressor, lines 16-40): empty input returns an empty
vector without calling the codec; otherwise zlib `uncompress` runs with a
destination buffer of `CHUNK_SIZE` bytes, and a non-`Z_OK` return throws
(`none` here). -/
def decompressData (c : Codec) (input : List Nat) : Option (List Nat) :=
  if input = [] then some []
  else c.decomp input CHUNK_SIZE

/-- The chunk-reading loop of compressor `main` (lines 139-151), with explicit
fuel.  Each iteration takes one block of at most `C` bytes and assigns the
next sequence number.  For `0 < C` (the program uses `C = CHUNK_SIZE`), fuel
`input.length` is always enough, so `chunksOf` below is exact. -/
def chunksLoop (C : Nat) : Nat → Nat → List Nat → List Chunk
  | 0, _, _ => []
  | fuel + 1, i, input =>
    if input = [] then []
    else ⟨i, input.take C⟩ :: chunksLoop C fuel (i + 1) (input.drop C)

/-- Phase 1 of compressor `main`: split the whole input into chunks with
sequence numbers `0, 1, 2, ...` (`id_counter`). -/
def chunksOf (C : Nat) (input : List Nat) : List Chunk :=
  chunksLoop C input.length 0 input

/-- `chunksLoop` with the exact fuel, from an arbitrary starting sequence
number; used to state the induction lemmas. -/
def chunksFrom (C i : Nat) (input : List Nat) : List Chunk :=
  chunksLoop C input.length i input

/-- The four little-endian bytes of the `uint32_t size` field written by the
compressor (`out.write(reinterpret_cast<const char*>(&size), 4)` on x86). -/
def toLE4 (n : Nat) : List Nat :=
  [n % 256, n / 256 % 256, n / 65536 % 256, n / 16777216 % 256]

/-- The `uint32_t` read back from the first four bytes of the stream by the
decompressor (`in.read(reinterpret_cast<char*>(&compressedChunkSize), 4)`). -/
def readLE4 (b : List Nat) : Nat :=
  b.getD 0 0 + 256 * b.getD 1 0 + 65536 * b.getD 2 0 + 16777216 * b.getD 3 0

/-- One container frame as written by compressor `main` (lines 189-194):
`uint32_t size = data.size()` (truncation mod 2^32 for oversized payloads)
followed by exactly `size` payload bytes (`out.write(..., size)`). -/
def mkFrame (d : List Nat) : List Nat :=
  toLE4 d.length ++ d.take (d.length % 4294967296)

/-- Phase 3 write loop of compressor `main`: frames concatenated in list
order, no padding or separators. -/
def writeContainer (l : List CompressedChunk) : List Nat :=
  (l.map (fun r => mkFrame r.data)).flatten

/-- Phase 2 of compressor `main` (lines 162-178): one task per chunk; a task
computes `compressData` and pushes the result (if `compressData` throws, the
worker loop catches the exception, logs it, and the push never happens, so the
chunk is dropped).  This is the canonical (submission-order) content of the
shared `compressed_chunks` vector; actual push order varies with scheduling
and is modelled by quantifying over permutations of this list. -/
def compressResults (c : Codec) (chunks : List Chunk) : List CompressedChunk :=
  chunks.filterMap (fun ch => (compressData c ch.data).map (fun d => ⟨ch.id, d⟩))

/-- The comparison `a.id < b.id` passed to `std::sort`, weakened to `≤` for a
total order; all sequence numbers in a run are pairwise distinct, so every
comparison sort returns the same list. -/
def leId (a b : CompressedChunk) : Prop := a.id ≤ b.id

instance : DecidableRel leId := fun a b => Nat.decLe a.id b.id

instance : IsTotal CompressedChunk leId := ⟨fun a b => Nat.le_total a.id b.id⟩

instance : IsTrans CompressedChunk leId := ⟨fun _ _ _ h h' => Nat.le_trans h h'⟩

/-- The Phase 3 `std::sort` on sequence numbers (compressor lines 181-187). -/
def sortById (l : List CompressedChunk) : List CompressedChunk :=
  l.insertionSort leId

/-- The full compression pipeline of compressor `main`: chunk, compress each
chunk, sort the results by sequence number, and write the framed container. -/
def compressContainer (c : Codec) (input : List Nat) : List Nat :=
  writeContainer (sortById (compressResults c (chunksOf CHUNK_SIZE input)))

/-- The decompressor `main` loop (lines 64-102), with explicit fuel (each
iteration consumes at least 4 bytes, so fuel `bytes.length` is exact).  The
result is the concatenated output written to the output file plus a success
flag (`true` = exit code 0).  Branches, in source order:
* `in.peek() == EOF` (no bytes left): clean end, success;
* fewer than 4 bytes left: `in.read` of the length field hits EOF with
  `gcount() != 4`, and since `in.eof()` holds the loop does `break` — the run
  still ends with success (the guarding `peek` means this branch fires
  exactly on a partial length field, never on a clean boundary);
* fewer than `compressedChunkSize` payload bytes left: corruption error,
  exit 1;
* `decompressData` throws: caught, exit 1;
* otherwise append the decompressed bytes and continue. -/
def decompressLoop (c : Codec) : Nat → List Nat → List Nat × Bool
  | 0, _ => ([], true)
  | fuel + 1, bytes =>
    if bytes.length < 4 then ([], true)
    else
      let len := readLE4 bytes
      let rest := bytes.drop 4
      if rest.length < len then ([], false)
      else
        match decompressData c (rest.take len) with
        | none => ([], false)
        | some d =>
          let r := decompressLoop c fuel (rest.drop len)
          (d ++ r.1, r.2)

/-- The decompressor `main` run on a whole container. -/
def decompressRun (c : Codec) (bytes : List Nat) : List Nat × Bool :=
  decompressLoop c bytes.length bytes

/-- The identity codec: a concrete well-formed `Codec` used to instantiate
theorems with hypotheses on concrete inputs. -/
def idCodec : Codec where
  comp x cap := if x.length ≤ cap then some x else none
  decomp y cap := if y.length ≤ cap then some y else none
  comp_le := by
    intro x cap y h
    dsimp only at h
    split at h
    · cases h; assumption
    · cases h
  decomp_le := by
    intro x cap y h
    dsimp only at h
    split at h
    · cases h; assumption
    · cases h

/-- A codec that always fails; used to exhibit dropped chunks. -/
def noneCodec : Codec where
  comp _ _ := none
  decomp _ _ := none
  comp_le := by intro x cap y h; cases h
  decomp_le := by intro x cap y h; cases h

/-- Size-guarded return, shared by the `badCodec` fields below. -/
def guard0 (cap : Nat) (r : List Nat) : Option (List Nat) :=
  if r.length ≤ cap then some r else none

/-- A well-formed codec whose compression of `[1]` is the empty byte string,
yet which satisfies `decomp (comp x) = x` for every payload (it permutes the
three strings `[]`, `[1]`, `[2]` and is the identity elsewhere).  It witnesses
that the round-trip claim needs compressed payloads to be nonempty: the
decompressor's empty-input short circuit never hands `[]` back to the codec. -/
def badMap (x : List Nat) : List Nat :=
  if x = [1] then [] else if x = [] then [2] else if x = [2] then [1] else x

def badUnmap (y : List Nat) : List Nat :=
  if y = [] then [1] else if y = [2] then [] else if y = [1] then [2] else y

def badCodec : Codec where
  comp x cap := guard0 cap (badMap x)
  decomp y cap := guard0 cap (badUnmap y)
  comp_le := by
    intro x cap y h
    dsimp only at h
    unfold guard0 at h
    split at h
    · cases h; assumption
    · cases h
  decomp_le := by
    intro x cap y h
    dsimp only at h
    unfold guard0 at h
    split at h
    · cases h; assumption
    · cases h

/-! ### Chunking lemmas -/

theorem chunksLoop_nil (C f i : Nat) : chunksLoop C f i [] = [] := by
  cases f <;> simp [chunksLoop]

theorem chunksLoop_congr (C : Nat) (hC : 0 < C) :
    ∀ f1 f2 i : Nat, ∀ input : List Nat, input.length ≤ f1 → input.length ≤ f2 →
      chunksLoop C f1 i input = chunksLoop C f2 i input := by
  intro f1
  induction f1 with
  | zero =>
    intro f2 i input h1 _
    have hnil : input = [] := List.eq_nil_of_length_eq_zero (Nat.le_zero.mp h1)
    subst hnil
    rw [chunksLoop_nil, chunksLoop_nil]
  | succ f ih =>
    intro f2 i input h1 h2
    cases input with
    | nil => rw [chunksLoop_nil, chunksLoop_nil]
    | cons a as =>
      cases f2 with
      | zero => simp at h2
      | succ g =>
        simp only [chunksLoop, if_neg (List.cons_ne_nil a as)]
        congr 1
        apply ih
        · rw [List.length_drop]
          simp only [List.length_cons] at h1 ⊢
          omega
        · rw [List.length_drop]
          simp only [List.length_cons] at h2 ⊢
          omega

theorem chunksFrom_nil (C i : Nat) : chunksFrom C i [] = [] := rfl

theorem chunksFrom_cons (C i : Nat) (hC : 0 < C) (input : List Nat) (h : input ≠ []) :
    chunksFrom C i input = ⟨i, input.take C⟩ :: chunksFrom C (i + 1) (input.drop C) := by
  unfold chunksFrom
  cases input with
  | nil => exact absurd rfl h
  | cons a as =>
    simp only [List.length_cons, chunksLoop, if_neg (List.cons_ne_nil a as)]
    congr 1
    apply chunksLoop_congr C hC
    · rw [List.length_drop]
      simp only [List.length_cons]
      omega
    · exact Nat.le_refl _

theorem chunksFrom_ne_nil (C i : Nat) (hC : 0 < C) (input : List Nat) (h : input ≠ []) :
    chunksFrom C i input ≠ [] := by
  rw [chunksFrom_cons C i hC input h]
  exact List.cons_ne_nil _ _

theorem chunksOf_eq_chunksFrom (C : Nat) (input : List Nat) :
    chunksOf C input = chunksFrom C 0 input := rfl

theorem chunksOf_small (C : Nat) (input : List Nat) (h0 : input ≠ [])
    (hle : input.length ≤ C) : chunksOf C input = [⟨0, input⟩] := by
  have hC : 0 < C := lt_of_lt_of_le (List.length_pos.mpr h0) hle
  rw [chunksOf_eq_chunksFrom, chunksFrom_cons C 0 hC input h0,
    List.take_of_length_le hle, List.drop_eq_nil_of_le hle, chunksFrom_nil]

theorem chunksFrom_flatten (C : Nat) (hC : 0 < C) :
    ∀ n i : Nat, ∀ input : List Nat, input.length ≤ n →
      ((chunksFrom C i input).map Chunk.data).flatten = input := by
  intro n
  induction n with
  | zero =>
    intro i input h
    have hnil : input = [] := List.eq_nil_of_length_eq_zero (Nat.le_zero.mp h)
    subst hnil
    rfl
  | succ n ih =>
    intro i input h
    by_cases hne : input = []
    · subst hne; rfl
    · rw [chunksFrom_cons C i hC input hne]
      simp only [List.map_cons, List.flatten_cons]
      rw [ih (i + 1) (input.drop C) (by rw [List.length_drop]; omega)]
      exact List.take_append_drop C input

theorem chunksFrom_ids (C : Nat) (hC : 0 < C) :
    ∀ n i : Nat, ∀ input : List Nat, input.length ≤ n →
      (chunksFrom C i input).map Chunk.id =
        List.range' i (chunksFrom C i input).length := by
  intro n
  induction n with
  | zero =>
    intro i input h
    have hnil : input = [] := List.eq_nil_of_length_eq_zero (Nat.le_zero.mp h)
    subst hnil
    rfl
  | succ n ih =>
    intro i input h
    by_cases hne : input = []
    · subst hne; rfl
    · rw [chunksFrom_cons C i hC input hne]
      simp only [List.map_cons, List.length_cons]
      rw [List.range'_succ i (chunksFrom C (i + 1) (input.drop C)).length 1]
      congr 1
      exact ih (i + 1) (input.drop C) (by rw [List.length_drop]; omega)

theorem chunksFrom_length (C : Nat) (hC : 0 < C) :
    ∀ n i : Nat, ∀ input : List Nat, input.length ≤ n →
      (chunksFrom C i input).length = (input.length + C - 1) / C := by
  have key : ∀ M : Nat, 1 ≤ M → (M + C - 1) / C = (M - 1) / C + 1 := by
    intro M hM
    have hM' : M + C - 1 = (M - 1) + C := by omega
    rw [hM', Nat.add_div_right _ hC]
  intro n
  induction n with
  | zero =>
    intro i input h
    have hnil : input = [] := List.eq_nil_of_length_eq_zero (Nat.le_zero.mp h)
    subst hnil
    rw [chunksFrom_nil]
    simp only [List.length_nil, Nat.zero_add]
    exact (Nat.div_eq_of_lt (by omega)).symm
  | succ n ih =>
    intro i input h
    by_cases hne : input = []
    · subst hne
      rw [chunksFrom_nil]
      simp only [List.length_nil, Nat.zero_add]
      exact (Nat.div_eq_of_lt (by omega)).symm
    · have hL : 0 < input.length := List.length_pos.mpr hne
      rw [chunksFrom_cons C i hC input hne]
      simp only [List.length_cons]
      rw [ih (i + 1) (input.drop C) (by rw [List.length_drop]; omega)]
      rw [List.length_drop, key input.length hL]
      rcases le_or_lt input.length C with hLC | hLC
      · have h0 : input.length - C = 0 := by omega
        rw [h0]
        have e1 : (0 + C - 1) / C = 0 := Nat.div_eq_of_lt (by omega)
        have e2 : (input.length - 1) / C = 0 := Nat.div_eq_of_lt (by omega)
        rw [e1, e2]
      · have h1 : 1 ≤ input.length - C := by omega
        rw [key (input.length - C) h1]
        have h2 : input.length - 1 = (input.length - C - 1) + C := by omega
        rw [h2, Nat.add_div_right _ hC]

theorem chunksFrom_data_bounds (C : Nat) (hC : 0 < C) :
    ∀ n i : Nat, ∀ input : List Nat, input.length ≤ n →
      ∀ ch ∈ chunksFrom C i input, ch.data ≠ [] ∧ ch.data.length ≤ C := by
  intro n
  induction n with
  | zero =>
    intro i input h
    have hnil : input = [] := List.eq_nil_of_length_eq_zero (Nat.le_zero.mp h)
    subst hnil
    intro ch hch
    simp [chunksFrom_nil] at hch
  | succ n ih =>
    intro i input h
    by_cases hne : input = []
    · subst hne
      intro ch hch
      simp [chunksFrom_nil] at hch
    · rw [chunksFrom_cons C i hC input hne]
      intro ch hch
      rcases List.mem_cons.mp hch with hch | hch
      · subst hch
        constructor
        · have : 0 < (input.take C).length := by
            rw [List.length_take]
            have := List.length_pos.mpr hne
            omega
          exact List.length_pos.mp this
        · exact List.length_take_le C input
      · exact ih (i + 1) (input.drop C) (by rw [List.length_drop]; omega) ch hch

theorem chunksFrom_dropLast (C : Nat) (hC : 0 < C) :
    ∀ n i : Nat, ∀ input : List Nat, input.length ≤ n →
      ∀ ch ∈ (chunksFrom C i input).dropLast, ch.data.length = C := by
  intro n
  induction n with
  | zero =>
    intro i input h
    have hnil : input = [] := List.eq_nil_of_length_eq_zero (Nat.le_zero.mp h)
    subst hnil
    intro ch hch
    simp [chunksFrom_nil] at hch
  | succ n ih =>
    intro i input h
    by_cases hne : input = []
    · subst hne
      intro ch hch
      simp [chunksFrom_nil] at hch
    · rw [chunksFrom_cons C i hC input hne]
      by_cases hd : input.drop C = []
      · rw [hd, chunksFrom_nil]
        intro ch hch
        simp at hch
      · have hrest : chunksFrom C (i + 1) (input.drop C) ≠ [] :=
          chunksFrom_ne_nil C (i + 1) hC (input.drop C) hd
        rw [List.dropLast_cons_of_ne_nil hrest]
        intro ch hch
        rcases List.mem_cons.mp hch with hch | hch
        · subst hch
          have hCle : C ≤ input.length := by
            by_contra hcon
            exact hd (List.drop_eq_nil_iff.mpr (by omega))
          rw [List.length_take]
          omega
        · exact ih (i + 1) (input.drop C) (by rw [List.length_drop]; omega) ch hch

theorem chunksFrom_getLast (C : Nat) (hC : 0 < C) :
    ∀ n i : Nat, ∀ input : List Nat, input.length ≤ n →
      ∀ lc, (chunksFrom C i input).getLast? = some lc →
        lc.data.length = if input.length % C = 0 then C else input.length % C := by
  intro n
  induction n with
  | zero =>
    intro i input h
    have hnil : input = [] := List.eq_nil_of_length_eq_zero (Nat.le_zero.mp h)
    subst hnil
    intro lc hlc
    rw [chunksFrom_nil] at hlc
    cases hlc
  | succ n ih =>
    intro i input h
    by_cases hne : input = []
    · subst hne
      intro lc hlc
      rw [chunksFrom_nil] at hlc
      cases hlc
    · rw [chunksFrom_cons C i hC input hne]
      have hL : 0 < input.length := List.length_pos.mpr hne
      by_cases hd : input.drop C = []
      · have hLC : input.length ≤ C := List.drop_eq_nil_iff.mp hd
        rw [hd, chunksFrom_nil]
        intro lc hlc
        rw [List.getLast?_singleton] at hlc
        cases hlc
        rcases eq_or_lt_of_le hLC with hEq | hLt
        · rw [hEq, Nat.mod_self, if_pos rfl]
          rw [List.length_take]
          omega
        · rw [Nat.mod_eq_of_lt hLt, if_neg (by omega)]
          rw [List.length_take]
          omega
      · have hCle : C < input.length := by
          by_contra hcon
          exact hd (List.drop_eq_nil_iff.mpr (by omega))
        have hrest : chunksFrom C (i + 1) (input.drop C) ≠ [] :=
          chunksFrom_ne_nil C (i + 1) hC (input.drop C) hd
        obtain ⟨r0, rest2, hr⟩ := List.exists_cons_of_ne_nil hrest
        intro lc hlc
        rw [hr, List.getLast?_cons_cons] at hlc
        have hrec := ih (i + 1) (input.drop C) (by rw [List.length_drop]; omega) lc
          (by rw [hr]; exact hlc)
        rw [List.length_drop] at hrec
        have hmod : (input.length - C) % C = input.length % C :=
          (Nat.mod_eq_sub_mod (le_of_lt hCle)).symm
        rw [hmod] at hrec
        exact hrec

/-- C2: for an input of length `L` and chunk size `C > 0`, the chunk-reading
phase produces exactly `ceil(L/C) = (L + C - 1) / C` chunks (zero when
`L = 0`), numbered `0, 1, ..., N-1` in order; every chunk except possibly the
last has payload length exactly `C`; the last chunk (when it exists) has
length `L mod C`, or `C` when `C` divides `L`; and the concatenation of all
chunk payloads in sequence-number order is the original input. -/
theorem chunking_correct (C : Nat) (input : List Nat) (hC : 0 < C) :
    (chunksOf C input).length = (input.length + C - 1) / C ∧
    (chunksOf C input).map Chunk.id = List.range (chunksOf C input).length ∧
    (∀ ch ∈ (chunksOf C input).dropLast, ch.data.length = C) ∧
    (∀ lc, (chunksOf C input).getLast? = some lc →
      lc.data.length = if input.length % C = 0 then C else input.length % C) ∧
    ((chunksOf C input).map Chunk.data).flatten = input := by
  rw [chunksOf_eq_chunksFrom]
  refine ⟨chunksFrom_length C hC input.length 0 input (Nat.le_refl _), ?_,
    chunksFrom_dropLast C hC input.length 0 input (Nat.le_refl _),
    chunksFrom_getLast C hC input.length 0 input (Nat.le_refl _),
    chunksFrom_flatten C hC input.length 0 input (Nat.le_refl _)⟩
  rw [List.range_eq_range']
  exact chunksFrom_ids C hC input.length 0 input (Nat.le_refl _)

/-- C2 witness: chunk size 3 on a 7-byte input gives chunks
`[1,2,3]`, `[4,5,6]`, `[7]`. -/
theorem chunking_correct_witness :
    0 < 3 ∧
    ((chunksOf 3 [1, 2, 3, 4, 5, 6, 7]).length =
        (([1, 2, 3, 4, 5, 6, 7] : List Nat).length + 3 - 1) / 3 ∧
      (chunksOf 3 [1, 2, 3, 4, 5, 6, 7]).map Chunk.id =
        List.range (chunksOf 3 [1, 2, 3, 4, 5, 6, 7]).length ∧
      (∀ ch ∈ (chunksOf 3 [1, 2, 3, 4, 5, 6, 7]).dropLast, ch.data.length = 3) ∧
      (∀ lc, (chunksOf 3 [1, 2, 3, 4, 5, 6, 7]).getLast? = some lc →
        lc.data.length =
          if ([1, 2, 3, 4, 5, 6, 7] : List Nat).length % 3 = 0 then 3
          else ([1, 2, 3, 4, 5, 6, 7] : List Nat).length % 3) ∧
      ((chunksOf 3 [1, 2, 3, 4, 5, 6, 7]).map Chunk.data).flatten =
        [1, 2, 3, 4, 5, 6, 7]) :=
  ⟨by decide, chunking_correct 3 [1, 2, 3, 4, 5, 6, 7] (by decide)⟩

/-! ### Decompressor loop lemmas -/

theorem decompressLoop_congr (c : Codec) :
    ∀ f1 f2 : Nat, ∀ bytes : List Nat, bytes.length ≤ f1 → bytes.length ≤ f2 →
      decompressLoop c f1 bytes = decompressLoop c f2 bytes := by
  intro f1
  induction f1 with
  | zero =>
    intro f2 bytes h1 _
    have hnil : bytes = [] := List.eq_nil_of_length_eq_zero (Nat.le_zero.mp h1)
    subst hnil
    cases f2 with
    | zero => rfl
    | succ g => simp [decompressLoop]
  | succ f ih =>
    intro f2 bytes h1 h2
    cases f2 with
    | zero =>
      have hnil : bytes = [] := List.eq_nil_of_length_eq_zero (Nat.le_zero.mp h2)
      subst hnil
      simp [decompressLoop]
    | succ g =>
      simp only [decompressLoop]
      by_cases h4 : bytes.length < 4
      · rw [if_pos h4, if_pos h4]
      · rw [if_neg h4, if_neg h4]
        by_cases hshort : (bytes.drop 4).length < readLE4 bytes
        · rw [if_pos hshort, if_pos hshort]
        · rw [if_neg hshort, if_neg hshort]
          cases hdec : decompressData c ((bytes.drop 4).take (readLE4 bytes)) with
          | none => rfl
          | some d =>
            have hlen : ((bytes.drop 4).drop (readLE4 bytes)).length ≤ f := by
              rw [List.length_drop, List.length_drop]
              omega
            have hlen2 : ((bytes.drop 4).drop (readLE4 bytes)).length ≤ g := by
              rw [List.length_drop, List.length_drop]
              omega
            rw [ih g _ hlen hlen2]

theorem decompressRun_nil (c : Codec) : decompressRun c [] = ([], true) := rfl

theorem decompressRun_short (c : Codec) (bytes : List Nat) (h : bytes.length < 4) :
    decompressRun c bytes = ([], true) := by
  unfold decompressRun
  cases bytes with
  | nil => rfl
  | cons a as =>
    simp only [List.length_cons, decompressLoop]
    rw [if_pos (by simpa using h)]

theorem decompressRun_step (c : Codec) (bytes : List Nat) (h : 4 ≤ bytes.length) :
    decompressRun c bytes =
      if (bytes.drop 4).length < readLE4 bytes then ([], false)
      else
        match decompressData c ((bytes.drop 4).take (readLE4 bytes)) with
        | none => ([], false)
        | some d =>
          (d ++ (decompressRun c ((bytes.drop 4).drop (readLE4 bytes))).1,
            (decompressRun c ((bytes.drop 4).drop (readLE4 bytes))).2) := by
  unfold decompressRun
  obtain ⟨f, hf⟩ : ∃ f, bytes.length = f + 1 := ⟨bytes.length - 1, by omega⟩
  rw [hf]
  simp only [decompressLoop]
  rw [if_neg (by omega : ¬ bytes.length < 4)]
  by_cases hshort : (bytes.drop 4).length < readLE4 bytes
  · rw [if_pos hshort, if_pos hshort]
  · rw [if_neg hshort, if_neg hshort]
    cases hdec : decompressData c ((bytes.drop 4).take (readLE4 bytes)) with
    | none => rfl
    | some d =>
      have hcg : decompressLoop c f ((bytes.drop 4).drop (readLE4 bytes)) =
          decompressLoop c ((bytes.drop 4).drop (readLE4 bytes)).length
            ((bytes.drop 4).drop (readLE4 bytes)) := by
        apply decompressLoop_congr
        · rw [List.length_drop, List.length_drop]
          omega
        · exact Nat.le_refl _
      rw [hcg]

theorem readLE4_cons (a b c d : Nat) (t : List Nat) :
    readLE4 (a :: b :: c :: d :: t) = a + 256 * b + 65536 * c + 16777216 * d := rfl

theorem readLE4_toLE4 (n : Nat) (t : List Nat) (h : n < 4294967296) :
    readLE4 (toLE4 n ++ t) = n := by
  show readLE4 (n % 256 :: n / 256 % 256 :: n / 65536 % 256 :: n / 16777216 % 256 :: t) = n
  rw [readLE4_cons]
  omega

theorem mkFrame_eq (d : List Nat) (h : d.length < 4294967296) :
    mkFrame d = toLE4 d.length ++ d := by
  unfold mkFrame
  rw [Nat.mod_eq_of_lt h, List.take_of_length_le (Nat.le_refl _)]

theorem decompressRun_frame (c : Codec) (p t dOut : List Nat)
    (hlen : p.length < 4294967296) (hd : decompressData c p = some dOut) :
    decompressRun c (mkFrame p ++ t) =
      (dOut ++ (decompressRun c t).1, (decompressRun c t).2) := by
  rw [mkFrame_eq p hlen, List.append_assoc]
  have hlen4 : (toLE4 p.length).length = 4 := rfl
  have h4 : 4 ≤ (toLE4 p.length ++ (p ++ t)).length := by
    rw [List.length_append, hlen4]
    omega
  rw [decompressRun_step c _ h4]
  have hdrop : (toLE4 p.length ++ (p ++ t)).drop 4 = p ++ t := by
    rw [← hlen4, List.drop_left]
  have hread : readLE4 (toLE4 p.length ++ (p ++ t)) = p.length :=
    readLE4_toLE4 _ _ hlen
  rw [hdrop, hread]
  rw [if_neg (by rw [List.length_append]; omega)]
  rw [List.take_left, List.drop_left, hd]

/-! ### Bounds on the compressed size -/

theorem le_compressBound (n : Nat) : n ≤ compressBound n := by
  unfold compressBound
  omega

theorem compressBound_lt (n : Nat) (h : n ≤ CHUNK_SIZE) :
    compressBound n < 4294967296 := by
  unfold compressBound
  unfold CHUNK_SIZE at h
  omega

/-! ### Result-set lemmas -/

theorem compressResults_all_some (c : Codec) :
    ∀ chunks : List Chunk, (∀ ch ∈ chunks, compressData c ch.data ≠ none) →
      (compressResults c chunks).map CompressedChunk.id = chunks.map Chunk.id := by
  intro chunks
  induction chunks with
  | nil => intro _; rfl
  | cons ch chs ih =>
    intro h
    obtain ⟨d, hd⟩ :=
      Option.ne_none_iff_exists'.mp (h ch (List.mem_cons_self ch chs))
    unfold compressResults at ih ⊢
    simp only [List.filterMap_cons, hd, Option.map_some', List.map_cons]
    rw [ih (fun x hx => h x (List.mem_cons_of_mem ch hx))]

theorem compressResults_ids_sublist (c : Codec) :
    ∀ chunks : List Chunk,
      ((compressResults c chunks).map CompressedChunk.id).Sublist
        (chunks.map Chunk.id) := by
  intro chunks
  induction chunks with
  | nil => exact List.Sublist.refl _
  | cons ch chs ih =>
    unfold compressResults at ih ⊢
    cases hd : compressData c ch.data with
    | none =>
      simp only [List.filterMap_cons, hd, Option.map_none', List.map_cons]
      exact ih.cons _
    | some d =>
      simp only [List.filterMap_cons, hd, Option.map_some', List.map_cons]
      exact ih.cons₂ _

theorem chunksOf_ids (C : Nat) (hC : 0 < C) (input : List Nat) :
    (chunksOf C input).map Chunk.id = List.range' 0 (chunksOf C input).length := by
  rw [chunksOf_eq_chunksFrom]
  exact chunksFrom_ids C hC input.length 0 input (Nat.le_refl _)

theorem chunksOf_ids_nodup (C : Nat) (hC : 0 < C) (input : List Nat) :
    ((chunksOf C input).map Chunk.id).Nodup := by
  rw [chunksOf_ids C hC input]
  exact List.nodup_range' _ _

theorem compressResults_ids_nodup (c : Codec) (C : Nat) (hC : 0 < C)
    (input : List Nat) :
    ((compressResults c (chunksOf C input)).map CompressedChunk.id).Nodup := by
  have hsub := compressResults_ids_sublist c (chunksOf C input)
  exact (chunksOf_ids_nodup C hC input).sublist hsub

theorem compressResults_sorted (c : Codec) (C : Nat) (hC : 0 < C)
    (input : List Nat) :
    (compressResults c (chunksOf C input)).Sorted leId := by
  have hsub := compressResults_ids_sublist c (chunksOf C input)
  rw [chunksOf_ids C hC input] at hsub
  have hpw : ((compressResults c (chunksOf C input)).map CompressedChunk.id).Pairwise
      (fun a b => a < b) :=
    (List.pairwise_lt_range' 0 (chunksOf C input).length).sublist hsub
  have hpw2 := List.pairwise_map.mp hpw
  exact hpw2.imp (fun h => Nat.le_of_lt h)

/-- Two sorted lists of compressed chunks with the same multiset of elements
and duplicate-free sequence numbers are equal; this is why the result of
`std::sort` does not depend on completion order. -/
theorem sorted_perm_ids_nodup_eq (l1 l2 : List CompressedChunk) (hp : l1.Perm l2)
    (hs1 : l1.Sorted leId) (hs2 : l2.Sorted leId)
    (hn : (l1.map CompressedChunk.id).Nodup) : l1 = l2 := by
  haveI : IsAntisymm CompressedChunk (fun a b => a.id < b.id) :=
    ⟨fun a b h1 h2 => absurd (Nat.lt_trans h1 h2) (Nat.lt_irrefl _)⟩
  have hn2 : (l2.map CompressedChunk.id).Nodup := ((hp.map _).nodup_iff).mp hn
  have hlt1 : l1.Pairwise (fun a b => a.id < b.id) := by
    have hne := List.pairwise_map.mp hn
    exact (hs1.and hne).imp (fun h => lt_of_le_of_ne h.1 h.2)
  have hlt2 : l2.Pairwise (fun a b => a.id < b.id) := by
    have hne := List.pairwise_map.mp hn2
    exact (hs2.and hne).imp (fun h => lt_of_le_of_ne h.1 h.2)
  exact List.eq_of_perm_of_sorted hp hlt1 hlt2

theorem sortById_perm (l : List CompressedChunk) : (sortById l).Perm l :=
  List.perm_insertionSort leId l

theorem sortById_sorted (l : List CompressedChunk) : (sortById l).Sorted leId :=
  List.sorted_insertionSort leId l

theorem sortById_eq_of_sorted (l : List CompressedChunk) (hs : l.Sorted leId)
    (hn : (l.map CompressedChunk.id).Nodup) : sortById l = l := by
  apply sorted_perm_ids_nodup_eq _ _ (sortById_perm l) (sortById_sorted l) hs
  exact ((sortById_perm l).map _).nodup_iff.mpr hn

theorem sortById_compressResults (c : Codec) (C : Nat) (hC : 0 < C)
    (input : List Nat) :
    sortById (compressResults c (chunksOf C input)) =
      compressResults c (chunksOf C input) :=
  sortById_eq_of_sorted _ (compressResults_sorted c C hC input)
    (compressResults_ids_nodup c C hC input)

theorem length_filterMap_lt {α β : Type} (f : α → Option β) :
    ∀ l : List α, (∃ a ∈ l, f a = none) → (l.filterMap f).length < l.length := by
  intro l
  induction l with
  | nil =>
    rintro ⟨a, ha, _⟩
    cases ha
  | cons x xs ih =>
    rintro ⟨a, ha, hf⟩
    rcases List.mem_cons.mp ha with rfl | ha2
    · simp only [List.filterMap_cons, hf, List.length_cons]
      have := List.length_filterMap_le f xs
      omega
    · cases hfx : f x with
      | none =>
        simp only [List.filterMap_cons, hfx, List.length_cons]
        have := List.length_filterMap_le f xs
        omega
      | some b =>
        simp only [List.filterMap_cons, hfx, List.length_cons]
        have := ih ⟨a, ha2, hf⟩
        omega

/-- C7: in a run over `N` submitted chunks in which no compression task
fails, the result set collected behind the shutdown barrier has exactly `N`
entries, no sequence number was inserted twice, and the sequence numbers
present are exactly the interval `[0, N)` with no gaps. -/
theorem resultset_complete (c : Codec) (input : List Nat)
    (h : ∀ ch ∈ chunksOf CHUNK_SIZE input, compressData c ch.data ≠ none) :
    (compressResults c (chunksOf CHUNK_SIZE input)).length =
      (chunksOf CHUNK_SIZE input).length ∧
    ((compressResults c (chunksOf CHUNK_SIZE input)).map CompressedChunk.id).Nodup ∧
    (compressResults c (chunksOf CHUNK_SIZE input)).map CompressedChunk.id =
      List.range (chunksOf CHUNK_SIZE input).length := by
  have hC : 0 < CHUNK_SIZE := by decide
  have hids := compressResults_all_some c (chunksOf CHUNK_SIZE input) h
  refine ⟨?_, compressResults_ids_nodup c CHUNK_SIZE hC input, ?_⟩
  · have hlen := congrArg List.length hids
    rw [List.length_map, List.length_map] at hlen
    exact hlen
  · rw [hids, List.range_eq_range']
    exact chunksOf_ids CHUNK_SIZE hC input

/-- C7 witness: the identity codec on the one-chunk input `[7]`. -/
theorem resultset_complete_witness :
    (∀ ch ∈ chunksOf CHUNK_SIZE [7], compressData idCodec ch.data ≠ none) ∧
    ((compressResults idCodec (chunksOf CHUNK_SIZE [7])).length =
        (chunksOf CHUNK_SIZE [7]).length ∧
      ((compressResults idCodec (chunksOf CHUNK_SIZE [7])).map
          CompressedChunk.id).Nodup ∧
      (compressResults idCodec (chunksOf CHUNK_SIZE [7])).map CompressedChunk.id =
        List.range (chunksOf CHUNK_SIZE [7]).length) := by
  have h : ∀ ch ∈ chunksOf CHUNK_SIZE [7], compressData idCodec ch.data ≠ none := by
    rw [chunksOf_small CHUNK_SIZE [7] (by decide) (by decide)]
    decide
  exact ⟨h, resultset_complete idCodec [7] h⟩

/-- C6: for a fixed input and codec, the container bytes do not depend on the
order in which worker threads complete and push their `CompressedChunk`s:
every completion order is a permutation of the canonical result list, and any
two permutations sort (by sequence number) to the same list, so the written
containers are byte-identical. -/
theorem container_deterministic (c : Codec) (input : List Nat)
    (r1 r2 : List CompressedChunk)
    (h1 : r1.Perm (compressResults c (chunksOf CHUNK_SIZE input)))
    (h2 : r2.Perm (compressResults c (chunksOf CHUNK_SIZE input))) :
    writeContainer (sortById r1) = writeContainer (sortById r2) := by
  have hC : 0 < CHUNK_SIZE := by decide
  have key : ∀ r : List CompressedChunk,
      r.Perm (compressResults c (chunksOf CHUNK_SIZE input)) →
      sortById r = compressResults c (chunksOf CHUNK_SIZE input) := by
    intro r hr
    apply sorted_perm_ids_nodup_eq _ _ ((sortById_perm r).trans hr)
      (sortById_sorted r) (compressResults_sorted c CHUNK_SIZE hC input)
    exact (((sortById_perm r).trans hr).map _).nodup_iff.mpr
      (compressResults_ids_nodup c CHUNK_SIZE hC input)
  rw [key r1 h1, key r2 h2]

/-- C6 witness: the identity codec on input `[7]`. -/
theorem container_deterministic_witness :
    ([⟨0, [7]⟩] : List CompressedChunk).Perm
        (compressResults idCodec (chunksOf CHUNK_SIZE [7])) ∧
    writeContainer (sortById [⟨0, [7]⟩]) = writeContainer (sortById [⟨0, [7]⟩]) := by
  have hc : compressResults idCodec (chunksOf CHUNK_SIZE [7]) = [⟨0, [7]⟩] := by
    rw [chunksOf_small CHUNK_SIZE [7] (by decide) (by decide)]
    decide
  have hp : ([⟨0, [7]⟩] : List CompressedChunk).Perm
      (compressResults idCodec (chunksOf CHUNK_SIZE [7])) := by
    rw [hc]
  exact ⟨hp, container_deterministic idCodec [7] [⟨0, [7]⟩] [⟨0, [7]⟩] hp hp⟩

/-- C3: when the compression of some chunk fails, that chunk is dropped from
the result set (the worker catches the exception and the insert never
happens): the result set ends up strictly smaller than the number of
submitted chunks, the failed chunk's sequence number is absent while every
successful chunk's is present, and the written container is just the frames
of the remaining chunks in sequence order — no gap marker. -/
theorem failed_chunk_dropped (c : Codec) (input : List Nat)
    (h : ∃ ch ∈ chunksOf CHUNK_SIZE input, compressData c ch.data = none) :
    (compressResults c (chunksOf CHUNK_SIZE input)).length <
      (chunksOf CHUNK_SIZE input).length ∧
    (∀ ch ∈ chunksOf CHUNK_SIZE input, compressData c ch.data = none →
      ch.id ∉ (compressResults c (chunksOf CHUNK_SIZE input)).map CompressedChunk.id) ∧
    (∀ ch ∈ chunksOf CHUNK_SIZE input, compressData c ch.data ≠ none →
      ch.id ∈ (compressResults c (chunksOf CHUNK_SIZE input)).map CompressedChunk.id) ∧
    compressContainer c input =
      ((compressResults c (chunksOf CHUNK_SIZE input)).map
        (fun r => mkFrame r.data)).flatten := by
  have hC : 0 < CHUNK_SIZE := by decide
  refine ⟨?_, ?_, ?_, ?_⟩
  · obtain ⟨ch, hch, hnone⟩ := h
    apply length_filterMap_lt
    exact ⟨ch, hch, by rw [hnone]; rfl⟩
  · intro ch hch hnone hmem
    obtain ⟨r, hr, hrid⟩ := List.mem_map.mp hmem
    obtain ⟨ch2, hch2, hf⟩ := List.mem_filterMap.mp hr
    obtain ⟨d, hd, hrd⟩ := Option.map_eq_some'.mp hf
    have hid : ch2.id = ch.id := by rw [← hrid, ← hrd]
    have heq : ch2 = ch :=
      List.inj_on_of_nodup_map (chunksOf_ids_nodup CHUNK_SIZE hC input)
        hch2 hch hid
    rw [heq] at hd
    rw [hnone] at hd
    cases hd
  · intro ch hch hsome
    obtain ⟨d, hd⟩ := Option.ne_none_iff_exists'.mp hsome
    exact List.mem_map.mpr ⟨⟨ch.id, d⟩,
      List.mem_filterMap.mpr ⟨ch, hch, by rw [hd]; rfl⟩, rfl⟩
  · unfold compressContainer
    rw [sortById_compressResults c CHUNK_SIZE hC input]
    rfl

/-- C3 witness: the always-failing codec on the one-chunk input `[9]`. -/
theorem failed_chunk_dropped_witness :
    (∃ ch ∈ chunksOf CHUNK_SIZE [9], compressData noneCodec ch.data = none) ∧
    ((compressResults noneCodec (chunksOf CHUNK_SIZE [9])).length <
        (chunksOf CHUNK_SIZE [9]).length ∧
      (∀ ch ∈ chunksOf CHUNK_SIZE [9], compressData noneCodec ch.data = none →
        ch.id ∉ (compressResults noneCodec (chunksOf CHUNK_SIZE [9])).map
          CompressedChunk.id) ∧
      (∀ ch ∈ chunksOf CHUNK_SIZE [9], compressData noneCodec ch.data ≠ none →
        ch.id ∈ (compressResults noneCodec (chunksOf CHUNK_SIZE [9])).map
          CompressedChunk.id) ∧
      compressContainer noneCodec [9] =
        ((compressResults noneCodec (chunksOf CHUNK_SIZE [9])).map
          (fun r => mkFrame r.data)).flatten) := by
  have h : ∃ ch ∈ chunksOf CHUNK_SIZE [9], compressData noneCodec ch.data = none := by
    rw [chunksOf_small CHUNK_SIZE [9] (by decide) (by decide)]
    decide
  exact ⟨h, failed_chunk_dropped noneCodec [9] h⟩

/-- C4 (code defect): a container whose remaining bytes at a frame boundary
form a partial length field (here one stray byte) is accepted by the
decompressor as a clean end of container: `in.read` of the 4-byte length
hits EOF with `gcount() != 4`, and because `eof()` is then set the loop
`break`s and the run ends with success (exit 0, output unchanged), not with
the fatal corruption error the specification requires.  The guarding
`peek() != EOF` means that branch can only ever fire on a partial length
field, never on a clean boundary. -/
theorem partial_length_field_accepted (c : Codec) :
    decompressRun c [1] = ([], true) :=
  decompressRun_short c [1] (by decide)

/-- C9: empty input gives zero chunks, so the compressor writes an empty
container (zero frames) and reports success without submitting any task to
the pool; and the decompressor on an empty container sees `peek() == EOF` at
once, produces empty output and reports success. -/
theorem empty_input_empty_container (c : Codec) :
    chunksOf CHUNK_SIZE ([] : List Nat) = [] ∧
    compressContainer c [] = [] ∧
    decompressRun c [] = ([], true) :=
  ⟨rfl, rfl, rfl⟩

/-- C10: a payload successfully produced by `compressData` for a chunk of at
most `CHUNK_SIZE` bytes fits its `compressBound`-sized destination buffer and
is therefore shorter than 2^32, so the `uint32_t` length field stores the
exact byte count, the frame is the untruncated length prefix followed by the
whole payload, and the reader recovers the payload size exactly. -/
theorem frame_length_exact (c : Codec) (input y : List Nat)
    (hle : input.length ≤ CHUNK_SIZE) (h : compressData c input = some y) :
    y.length < 4294967296 ∧ mkFrame y = toLE4 y.length ++ y ∧
      readLE4 (mkFrame y) = y.length := by
  have hlt : y.length < 4294967296 := by
    unfold compressData at h
    by_cases hnil : input = []
    · rw [if_pos hnil] at h
      cases h
      decide
    · rw [if_neg hnil] at h
      have hb := c.comp_le input (compressBound input.length) y h
      have hcb := compressBound_lt input.length hle
      omega
  refine ⟨hlt, mkFrame_eq y hlt, ?_⟩
  rw [mkFrame_eq y hlt]
  exact readLE4_toLE4 y.length y hlt

/-- C10 witness: identity codec on the one-byte payload `[7]`. -/
theorem frame_length_exact_witness :
    (([7] : List Nat).length ≤ CHUNK_SIZE ∧
      compressData idCodec [7] = some [7]) ∧
    (([7] : List Nat).length < 4294967296 ∧
      mkFrame [7] = toLE4 ([7] : List Nat).length ++ [7] ∧
      readLE4 (mkFrame [7]) = ([7] : List Nat).length) := by
  have h1 : ([7] : List Nat).length ≤ CHUNK_SIZE := by decide
  have h2 : compressData idCodec [7] = some [7] := by decide
  exact ⟨⟨h1, h2⟩, frame_length_exact idCodec [7] [7] h1 h2⟩

/-! ### Round trip -/

theorem decompressData_some (c : Codec) (y x : List Nat) (hy : y ≠ [])
    (h : c.decomp y CHUNK_SIZE = some x) : decompressData c y = some x := by
  unfold decompressData
  rw [if_neg hy]
  exact h

theorem decode_writeContainer (c : Codec)
    (H : ∀ x : List Nat, x ≠ [] → x.length ≤ CHUNK_SIZE →
      ∃ y, c.comp x (compressBound x.length) = some y ∧ y ≠ [] ∧
        c.decomp y CHUNK_SIZE = some x) :
    ∀ cs : List Chunk, (∀ ch ∈ cs, ch.data ≠ [] ∧ ch.data.length ≤ CHUNK_SIZE) →
      decompressRun c (writeContainer (compressResults c cs)) =
        ((cs.map Chunk.data).flatten, true) := by
  intro cs
  induction cs with
  | nil => intro _; rfl
  | cons ch cst ih =>
    intro hb
    obtain ⟨hne, hle⟩ := hb ch (List.mem_cons_self ch cst)
    obtain ⟨y, hcomp, hyne, hdecomp⟩ := H ch.data hne hle
    have hcd : compressData c ch.data = some y := by
      unfold compressData
      rw [if_neg hne]
      exact hcomp
    have hylen : y.length < 4294967296 := by
      have hb2 := c.comp_le ch.data (compressBound ch.data.length) y hcomp
      have hcb := compressBound_lt ch.data.length hle
      omega
    unfold compressResults writeContainer
    simp only [List.filterMap_cons, hcd, Option.map_some', List.map_cons,
      List.flatten_cons]
    rw [decompressRun_frame c y _ ch.data hylen
      (decompressData_some c y ch.data hyne hdecomp)]
    unfold compressResults writeContainer at ih
    rw [ih (fun x hx => hb x (List.mem_cons_of_mem ch hx))]

/-- C1 (amended): the pipeline round-trips — decoding the container written
by the compressor reproduces the input exactly and reports success — for
every codec satisfying decompress(compress(x)) = x on nonempty payloads of at
most `CHUNK_SIZE` bytes whose compressed output for such payloads is
nonempty.  (zlib satisfies both; dropping the nonemptiness assumption makes
the claim false, see `roundtrip_fails_on_empty_compressed_payload`.) -/
theorem roundtrip_identity (c : Codec) (input : List Nat)
    (H : ∀ x : List Nat, x ≠ [] → x.length ≤ CHUNK_SIZE →
      ∃ y, c.comp x (compressBound x.length) = some y ∧ y ≠ [] ∧
        c.decomp y CHUNK_SIZE = some x) :
    decompressRun c (compressContainer c input) = (input, true) := by
  have hC : 0 < CHUNK_SIZE := by decide
  unfold compressContainer
  rw [sortById_compressResults c CHUNK_SIZE hC input]
  have hbounds : ∀ ch ∈ chunksOf CHUNK_SIZE input,
      ch.data ≠ [] ∧ ch.data.length ≤ CHUNK_SIZE := by
    rw [chunksOf_eq_chunksFrom]
    exact chunksFrom_data_bounds CHUNK_SIZE hC input.length 0 input (Nat.le_refl _)
  rw [decode_writeContainer c H (chunksOf CHUNK_SIZE input) hbounds]
  rw [chunksOf_eq_chunksFrom,
    chunksFrom_flatten CHUNK_SIZE hC input.length 0 input (Nat.le_refl _)]

/-- C1 witness: identity codec, one-byte input `[7]`. -/
theorem roundtrip_identity_witness :
    (∀ x : List Nat, x ≠ [] → x.length ≤ CHUNK_SIZE →
      ∃ y, idCodec.comp x (compressBound x.length) = some y ∧ y ≠ [] ∧
        idCodec.decomp y CHUNK_SIZE = some x) ∧
    decompressRun idCodec (compressContainer idCodec [7]) = ([7], true) := by
  have H : ∀ x : List Nat, x ≠ [] → x.length ≤ CHUNK_SIZE →
      ∃ y, idCodec.comp x (compressBound x.length) = some y ∧ y ≠ [] ∧
        idCodec.decomp y CHUNK_SIZE = some x := by
    intro x hne hle
    refine ⟨x, ?_, hne, ?_⟩
    · show (if x.length ≤ compressBound x.length then some x else none) = some x
      rw [if_pos (le_compressBound x.length)]
    · show (if x.length ≤ CHUNK_SIZE then some x else none) = some x
      rw [if_pos hle]
  exact ⟨H, roundtrip_identity idCodec [7] H⟩

/-- C1 counterexample: `badCodec` satisfies the claim's stated assumption —
decompress(compress(x)) = x for every payload of at most `CHUNK_SIZE` bytes —
yet the pipeline does not round-trip the input `[1]`.  Compression of `[1]`
yields the empty payload; the container is the single zero-length frame
`[0, 0, 0, 0]`; on reading, `decompressData`'s empty-input short circuit
returns `[]` without consulting the codec, so the run outputs `[]`, not
`[1]`.  The round-trip claim as stated (with no nonemptiness assumption on
compressed payloads) is therefore false on the code. -/
theorem roundtrip_fails_on_empty_compressed_payload :
    (∀ x : List Nat, x.length ≤ CHUNK_SIZE →
      ∃ y, badCodec.comp x (compressBound x.length) = some y ∧
        badCodec.decomp y CHUNK_SIZE = some x) ∧
    decompressRun badCodec (compressContainer badCodec [1]) ≠ ([1], true) := by
  constructor
  · intro x hle
    by_cases h1 : x = [1]
    · subst h1
      exact ⟨[], by decide, by decide⟩
    · by_cases h2 : x = []
      · subst h2
        exact ⟨[2], by decide, by decide⟩
      · by_cases h3 : x = [2]
        · subst h3
          exact ⟨[1], by decide, by decide⟩
        · refine ⟨x, ?_, ?_⟩
          · show guard0 (compressBound x.length) (badMap x) = some x
            unfold badMap
            rw [if_neg h1, if_neg h2, if_neg h3]
            unfold guard0
            rw [if_pos (le_compressBound x.length)]
          · show guard0 CHUNK_SIZE (badUnmap x) = some x
            unfold badUnmap
            rw [if_neg h2, if_neg h3, if_neg h1]
            unfold guard0
            rw [if_pos hle]
  · have hchunks : chunksOf CHUNK_SIZE [1] = [⟨0, [1]⟩] :=
      chunksOf_small CHUNK_SIZE [1] (by decide) (by decide)
    have hres : compressResults badCodec (chunksOf CHUNK_SIZE [1]) = [⟨0, []⟩] := by
      rw [hchunks]
      decide
    have hcont : compressContainer badCodec [1] = [0, 0, 0, 0] := by
      unfold compressContainer
      rw [hres]
      decide
    rw [hcont]
    decide

/-- C8: decoding stops at the first bad frame: after any prefix of good
frames, a frame whose payload is shorter than its declared length, or whose
payload the codec fails to decode, makes the whole run fail with exactly the
output of the preceding good frames — no frame after the bad one is
processed, and no output beyond the good prefix is written, whatever bytes
follow. -/
theorem decompress_stops_at_first_bad_frame (c : Codec)
    (ps os : List (List Nat)) (bad : List Nat)
    (hgood : List.Forall₂
      (fun p o => p.length < 4294967296 ∧ decompressData c p = some o) ps os)
    (hbadlen : 4 ≤ bad.length)
    (hbad : (bad.drop 4).length < readLE4 bad ∨
      decompressData c ((bad.drop 4).take (readLE4 bad)) = none) :
    decompressRun c ((ps.map mkFrame).flatten ++ bad) = (os.flatten, false) := by
  induction hgood with
  | nil =>
    simp only [List.map_nil, List.flatten_nil, List.nil_append]
    rw [decompressRun_step c bad hbadlen]
    rcases hbad with hshort | hnone
    · rw [if_pos hshort]
    · by_cases hshort : (bad.drop 4).length < readLE4 bad
      · rw [if_pos hshort]
      · rw [if_neg hshort]
        simp only [hnone]
  | @cons p o ps2 os2 h1 h2 ih =>
    simp only [List.map_cons, List.flatten_cons, List.append_assoc]
    rw [decompressRun_frame c p _ o h1.1 h1.2]
    rw [ih]

/-- C8 witness: one good frame with payload `[5]`, then a frame declaring 3
payload bytes with only one present. -/
theorem decompress_stops_at_first_bad_frame_witness :
    (List.Forall₂
      (fun p o => p.length < 4294967296 ∧ decompressData idCodec p = some o)
      [[5]] [[5]] ∧
      4 ≤ ([3, 0, 0, 0, 9] : List Nat).length ∧
      ((([3, 0, 0, 0, 9] : List Nat).drop 4).length < readLE4 [3, 0, 0, 0, 9] ∨
        decompressData idCodec ((([3, 0, 0, 0, 9] : List Nat).drop 4).take
          (readLE4 [3, 0, 0, 0, 9])) = none)) ∧
    decompressRun idCodec (([[5]].map mkFrame).flatten ++ [3, 0, 0, 0, 9]) =
      ([[5]].flatten, false) := by
  have h1 : List.Forall₂
      (fun p o => p.length < 4294967296 ∧ decompressData idCodec p = some o)
      [[5]] [[5]] := by
    refine List.Forall₂.cons ⟨by decide, by decide⟩ List.Forall₂.nil
  have h2 : 4 ≤ ([3, 0, 0, 0, 9] : List Nat).length := by decide
  have h3 : (([3, 0, 0, 0, 9] : List Nat).drop 4).length < readLE4 [3, 0, 0, 0, 9] ∨
      decompressData idCodec ((([3, 0, 0, 0, 9] : List Nat).drop 4).take
        (readLE4 [3, 0, 0, 0, 9])) = none := by
    left
    decide
  exact ⟨⟨h1, h2, h3⟩,
    decompress_stops_at_first_bad_frame idCodec [[5]] [[5]] [3, 0, 0, 0, 9] h1 h2 h3⟩

end MTC
